import Mathlib

/-!
# Verification of the scarab-pm package-manager core

Shallow embedding of the dependency-resolution and installation-transaction
engine of the `scarab-pm` package manager (`src/db.rs`, `src/main.rs`,
`src/verify.rs`, `src/package.rs`).

Modelling conventions:
* Rust `String` is Lean `String`; `Vec<T>` is `List T`.
* The `HashMap<String, InstalledPackage>` of installed packages is modelled
  as an association list `List (String × InstalledPackage)`; the hash-map
  invariant (no duplicate keys) is carried as an explicit hypothesis where a
  statement needs it.
* Persistence (`Database::load` / `Database::save`) is identified with the
  in-memory state: each state value stands for the on-disk databases, so
  `save` is the identity embedding and `load` yields the current state.
  The `config` field of `Database` only carries filesystem paths used by
  `load`/`save` and is therefore not part of the embedded state.
* The recursion of `resolve_deps_recursive` is not structural; it is embedded
  with an explicit fuel argument that is spent only when recursing into a
  package found in the repository.  A computed bound `dbFuel` is proved
  sufficient for every database, which is the termination statement.
* The effectful orchestrator (`install_package` / `remove_package` in
  `main.rs`) acts on a state that records the database plus a trace of the
  external calls it makes (fetch / verify / extract); the artifact contents
  delivered by the network are abstracted by the hex digest the verifier
  would compute for them.
-/

/-- `PackageInfo` from `src/db.rs` (repository metadata). -/
structure PackageInfo where
  name : String
  version : String
  category : String
  description : String
  depends : List String
  size : String
  sha256 : String
  filename : String
deriving DecidableEq, Repr

/-- `InstalledPackage` from `src/db.rs` (installed-set record). -/
structure InstalledPackage where
  name : String
  version : String
  installed_at : String
  files : List String
deriving DecidableEq, Repr

/-- `Database` from `src/db.rs`: repository snapshot plus installed mapping. -/
structure Database where
  packages : List PackageInfo
  installed : List (String × InstalledPackage)
deriving DecidableEq, Repr

/-- `Database::find_package`: first repository entry with the given name. -/
def find_package (db : Database) (name : String) : Option PackageInfo :=
  db.packages.find? (fun p => p.name == name)

/-- `Database::get_installed`: lookup in the installed mapping. -/
def get_installed (db : Database) (name : String) : Option InstalledPackage :=
  (db.installed.find? (fun kv => kv.1 == name)).map Prod.snd

/-- The append step of `resolve_deps_recursive`:
`if self.get_installed(dep_name).is_none() && !deps.contains(dep_name) {
deps.push(dep_name.clone()); }`. -/
def pushDep (db : Database) (n : String) (deps : List String) : List String :=
  if get_installed db n = none ∧ n ∉ deps then deps ++ [n] else deps

/-- Loop body of `Database::resolve_deps_recursive`: the `for dep_name in
&pkg.depends` loop over the remaining dependency names `names`, with output
accumulator `deps` and guard list `visited`.  The recursion into a package
found in the repository is abstracted as `recur`, so that the full function
below is structurally recursive on its fuel (and hence kernel-evaluable). -/
def resolveStep (db : Database)
    (recur : List String → List String → List String → Option (List String × List String)) :
    List String → List String → List String → Option (List String × List String)
  | [], deps, visited => some (deps, visited)
  | n :: rest, deps, visited =>
    if n ∈ visited then
      resolveStep db recur rest deps visited
    else
      match find_package db n with
      | none => resolveStep db recur rest deps (visited ++ [n])
      | some p =>
        match recur p.depends deps (visited ++ [n]) with
        | none => none
        | some (deps1, visited2) =>
          resolveStep db recur rest (pushDep db n deps1) visited2

/-- `Database::resolve_deps_recursive`, embedded with fuel.  Fuel is spent
exactly when recursing into a package found in the repository; a fuel-out is
reported as `none` (the bound `dbFuel` below is proved to make it
unreachable, which is the termination argument for the Rust original). -/
def resolve_deps_recursive (db : Database) : Nat →
    List String → List String → List String → Option (List String × List String)
  | 0 => resolveStep db (fun _ _ _ => none)
  | fuel + 1 => resolveStep db (resolve_deps_recursive db fuel)

/-- Fuel bound sufficient for `resolve_deps_recursive` on `db`. -/
def dbFuel (db : Database) : Nat :=
  (db.packages.map (fun p => p.name)).length

/-- `Database::resolve_deps`: ordered list of additional packages to install. -/
def resolve_deps (db : Database) (pkg : PackageInfo) : List String :=
  match resolve_deps_recursive db (dbFuel db) pkg.depends [] [] with
  | some (deps, _) => deps
  | none => []

/-- Loop body of `Database::check_upgrades` for one installed entry: the
repository lookup and the byte-wise version comparison. -/
def upgradeEntry (db : Database) (kv : String × InstalledPackage) :
    Option (String × String × String) :=
  match find_package db kv.1 with
  | some repo_pkg =>
    if repo_pkg.version = kv.2.version then none
    else some (kv.1, kv.2.version, repo_pkg.version)
  | none => none

/-- `Database::check_upgrades`: installed packages whose repository version
string differs (byte-wise) from the installed one, as
`(name, installed_version, repo_version)` triples. -/
def check_upgrades (db : Database) : List (String × String × String) :=
  db.installed.filterMap (upgradeEntry db)

/-- `HashMap::insert` on the association-list model: replace the entry with
the given key if present, otherwise add a new entry. -/
def insertInstalled (l : List (String × InstalledPackage)) (k : String)
    (v : InstalledPackage) : List (String × InstalledPackage) :=
  if l.any (fun kv => kv.1 == k) then
    l.map (fun kv => if kv.1 == k then (k, v) else kv)
  else
    l ++ [(k, v)]

/-- `Database::record_install`: upsert an `InstalledPackage` entry for `pkg`.
The timestamp produced by `chrono_now()` is passed in as `now`; the `files`
list is the empty vector the Rust code writes (`files: Vec::new()`). -/
def record_install (db : Database) (pkg : PackageInfo) (now : String) : Database :=
  { db with installed := insertInstalled db.installed pkg.name ⟨pkg.name, pkg.version, now, []⟩ }

/-- `Database::remove_installed`: delete the entry with the given name. -/
def remove_installed (db : Database) (name : String) : Database :=
  { db with installed := db.installed.filter (fun kv => ¬ (kv.1 = name)) }

/-- `verify_package` from `src/verify.rs`, abstracted over the hex digest
`artifactHash` that `Sha256` computes for the fetched artifact.  Returns
`.ok true` when verification was skipped with a warning (empty declared
hash), `.ok false` when the checksum matched, and the bail-out error on a
mismatch. -/
def verify_package (artifactHash : String) (pkg : PackageInfo) : Except String Bool :=
  if pkg.sha256 = "" then .ok true
  else if artifactHash = pkg.sha256 then .ok false
  else .error ("Checksum mismatch for " ++ pkg.name)

/-- `remove_package_files` from `src/package.rs`, modelled on a root
filesystem given as the list of files it contains: the first loop deletes
(best-effort) every path recorded in the package's `files` list.  The
second loop only prunes directories that became empty, which the file-level
model has no notion of. -/
def remove_package_files (root : List String) (pkg : InstalledPackage) : List String :=
  root.filter (fun f => ¬ (f ∈ pkg.files))

/-- One external call made by the installation orchestrator in `main.rs`:
`fetch::download_package`, `verify::verify_package`, or
`package::extract_package` for the named package. -/
inductive Event where
  | fetch (name : String)
  | check (name : String)
  | extract (name : String)
deriving DecidableEq

/-- Environment of the orchestrator: the hex digest of the artifact the
fetcher delivers for each package name (`none` = fetch failure) and the
timestamp `chrono_now()` returns. -/
structure Env where
  fetchHash : String → Option String
  now : String

/-- Orchestrator state: the persisted database plus the trace of external
calls made so far. -/
structure PMState where
  db : Database
  events : List Event
deriving DecidableEq

/-- The dependency loop of `install_package` (`for dep in &deps {
install_package(cfg, dep, false)?; }`): run `step` on each name in turn,
stopping at the first error. -/
def installDeps (step : PMState → String → PMState × Except String Unit) :
    PMState → List String → PMState × Except String Unit
  | st, [] => (st, .ok ())
  | st, n :: rest =>
    match step st n with
    | (st1, .ok _) => installDeps step st1 rest
    | (st1, .error e) => (st1, .error e)

/-- `install_package` from `src/main.rs`.  The state stands for the on-disk
databases, so the initial `Database::load` reads `st.db` and the re-load
before `record_install` reads the state produced by the dependency installs.
Fuel is spent on recursive dependency installs only; the Rust original has
no such bound and actually diverges on dependency cycles, which the
fuel-out error makes observable. -/
def install_package (env : Env) : Nat → PMState → String → Bool → PMState × Except String Unit
  | fuel, st, name, force =>
    if force = false ∧ (get_installed st.db name).isSome then
      (st, .ok ())
    else
      match find_package st.db name with
      | none => (st, .error ("Package '" ++ name ++ "' not found"))
      | some pkg =>
        match fuel with
        | 0 => (st, .error "recursion limit")
        | fuel' + 1 =>
          match installDeps (fun s d => install_package env fuel' s d false) st
              (resolve_deps st.db pkg) with
          | (st1, .error e) => (st1, .error e)
          | (st1, .ok _) =>
            let st2 : PMState := ⟨st1.db, st1.events ++ [Event.fetch name]⟩
            match env.fetchHash name with
            | none => (st2, .error ("Failed to download " ++ name))
            | some h =>
              let st3 : PMState := ⟨st2.db, st2.events ++ [Event.check name]⟩
              match verify_package h pkg with
              | .error e => (st3, .error e)
              | .ok _ =>
                let st4 : PMState := ⟨st3.db, st3.events ++ [Event.extract name]⟩
                (⟨record_install st4.db pkg env.now, st4.events⟩, .ok ())

/-- `remove_package` from `src/main.rs`, acting on the database and a root
filesystem given as its list of files: fails if the package is not
installed, otherwise deletes the recorded file paths from the root and the
entry from the database. -/
def remove_package (db : Database) (root : List String) (name : String) :
    Except String (Database × List String) :=
  match get_installed db name with
  | none => .error (name ++ " is not installed")
  | some inst => .ok (remove_installed db name, remove_package_files root inst)

/-- `upgrade_packages` from `src/main.rs`, reduced to its database effect:
`record_install` with the repository `PackageInfo` for every name returned
by `check_upgrades` (the effect of force-installing each of them, in order). -/
def applyUpgrades (db : Database) (now : String) : Database :=
  (check_upgrades db).foldl
    (fun d t =>
      match find_package d t.1 with
      | some p => record_install d p now
      | none => d)
    db

/-! ## Specification vocabulary: the dependency graph of a database -/

/-- The name `n` resolves to a repository package. -/
def known (db : Database) (n : String) : Prop :=
  (find_package db n).isSome

/-- Dependency edge on names: the repository package that `m` resolves to
lists `n` among its dependencies. -/
def DepEdge (db : Database) (m n : String) : Prop :=
  ∃ p, find_package db m = some p ∧ n ∈ p.depends

/-- Reachability along dependency edges (zero or more steps). -/
def Reaches (db : Database) : String → String → Prop :=
  Relation.ReflTransGen (DepEdge db)

/-- The dependency graph of the repository snapshot has no cycle. -/
def Acyclic (db : Database) : Prop :=
  ∀ n, ¬ Relation.TransGen (DepEdge db) n n

/-- All dependencies reachable from `x` that are in the repository and not
installed are already listed in `deps`. -/
def Processed (db : Database) (deps : List String) (x : String) : Prop :=
  ∀ z, Reaches db x z → known db z → get_installed db z = none → z ∈ deps

/-- `deps` is closed under reachable not-yet-installed repository
dependencies, and each such dependency appears strictly earlier than its
dependent (valid install order). -/
def OrdClosed (db : Database) (deps : List String) : Prop :=
  ∀ q ∈ deps, ∀ z, Relation.TransGen (DepEdge db) q z → known db z →
    get_installed db z = none → z ∈ deps ∧ deps.indexOf z < deps.indexOf q

/-- The type of the traversal functions underlying `resolve_deps_recursive`. -/
abbrev Resolver := List String → List String → List String → Option (List String × List String)

/-- `l₂` extends `l₁` on the right (the accumulators only ever grow by
appending). -/
def ExtOf (l₁ l₂ : List String) : Prop := ∃ t, l₂ = l₁ ++ t

theorem ExtOf.refl (l : List String) : ExtOf l l := ⟨[], by simp⟩

theorem ExtOf.trans {l₁ l₂ l₃ : List String} (h₁ : ExtOf l₁ l₂) (h₂ : ExtOf l₂ l₃) :
    ExtOf l₁ l₃ := by
  obtain ⟨t₁, rfl⟩ := h₁
  obtain ⟨t₂, rfl⟩ := h₂
  exact ⟨t₁ ++ t₂, by simp⟩

theorem ExtOf.append (l t : List String) : ExtOf l (l ++ t) := ⟨t, rfl⟩

theorem ExtOf.mem {l₁ l₂ : List String} (h : ExtOf l₁ l₂) {z : String} (hz : z ∈ l₁) :
    z ∈ l₂ := by
  obtain ⟨t, rfl⟩ := h
  exact List.mem_append_left t hz

/-! ## Basic facts about `find_package` and `get_installed` -/

theorem find_package_name {db : Database} {n : String} {p : PackageInfo}
    (h : find_package db n = some p) : p.name = n := by
  have := List.find?_some h
  simpa using this

theorem find_package_mem {db : Database} {n : String} {p : PackageInfo}
    (h : find_package db n = some p) : p ∈ db.packages :=
  List.mem_of_find?_eq_some h

theorem known_of_find {db : Database} {n : String} {p : PackageInfo}
    (h : find_package db n = some p) : known db n := by
  simp [known, h]

/-! ## Branch equations for `resolveStep` -/

theorem resolveStep_nil {db : Database} {recur : Resolver} {deps visited : List String} :
    resolveStep db recur [] deps visited = some (deps, visited) := rfl

theorem resolveStep_cons_mem {db : Database} {recur : Resolver} {n : String}
    {rest deps visited : List String} (hv : n ∈ visited) :
    resolveStep db recur (n :: rest) deps visited = resolveStep db recur rest deps visited := by
  simp [resolveStep, hv]

theorem resolveStep_cons_unknown {db : Database} {recur : Resolver} {n : String}
    {rest deps visited : List String} (hv : n ∉ visited) (hfp : find_package db n = none) :
    resolveStep db recur (n :: rest) deps visited =
      resolveStep db recur rest deps (visited ++ [n]) := by
  simp [resolveStep, hv, hfp]

theorem resolveStep_cons_found_none {db : Database} {recur : Resolver} {n : String}
    {rest deps visited : List String} {p : PackageInfo} (hv : n ∉ visited)
    (hfp : find_package db n = some p) (hr : recur p.depends deps (visited ++ [n]) = none) :
    resolveStep db recur (n :: rest) deps visited = none := by
  simp [resolveStep, hv, hfp, hr]

theorem resolveStep_cons_found_some {db : Database} {recur : Resolver} {n : String}
    {rest deps visited deps1 visited2 : List String} {p : PackageInfo} (hv : n ∉ visited)
    (hfp : find_package db n = some p)
    (hr : recur p.depends deps (visited ++ [n]) = some (deps1, visited2)) :
    resolveStep db recur (n :: rest) deps visited =
      resolveStep db recur rest (pushDep db n deps1) visited2 := by
  simp [resolveStep, hv, hfp, hr]

theorem pushDep_pos {db : Database} {n : String} {deps : List String}
    (h : get_installed db n = none ∧ n ∉ deps) : pushDep db n deps = deps ++ [n] := by
  simp [pushDep, h]

theorem pushDep_neg {db : Database} {n : String} {deps : List String}
    (h : ¬ (get_installed db n = none ∧ n ∉ deps)) : pushDep db n deps = deps := by
  simp only [pushDep, if_neg h]

theorem pushDep_cases {db : Database} {n : String} {deps : List String} {z : String}
    (hz : z ∈ pushDep db n deps) : z ∈ deps ∨ z = n := by
  by_cases h : get_installed db n = none ∧ n ∉ deps
  · rw [pushDep_pos h] at hz
    rcases List.mem_append.mp hz with hz | hz
    · exact Or.inl hz
    · exact Or.inr (by simpa using hz)
  · rw [pushDep_neg h] at hz
    exact Or.inl hz

theorem pushDep_ext {db : Database} {n : String} {deps : List String} :
    ExtOf deps (pushDep db n deps) := by
  by_cases h : get_installed db n = none ∧ n ∉ deps
  · rw [pushDep_pos h]; exact ExtOf.append deps [n]
  · rw [pushDep_neg h]; exact ExtOf.refl deps

/-! ## Layer 1: accumulator extension -/

/-- Both accumulators of a traversal function only grow. -/
def ExtendsOK (f : Resolver) : Prop :=
  ∀ names deps visited d v, f names deps visited = some (d, v) →
    ExtOf deps d ∧ ExtOf visited v

theorem extendsOK_none : ExtendsOK (fun _ _ _ => none) := by
  intro names deps visited d v h
  simp at h

theorem extendsOK_step {db : Database} {recur : Resolver} (hrec : ExtendsOK recur) :
    ExtendsOK (resolveStep db recur) := by
  intro names
  induction names with
  | nil =>
    intro deps visited d v h
    simp only [resolveStep] at h
    obtain ⟨rfl, rfl⟩ : deps = d ∧ visited = v := by
      constructor <;> [exact congrArg Prod.fst (Option.some.inj h);
        exact congrArg Prod.snd (Option.some.inj h)]
    exact ⟨ExtOf.refl _, ExtOf.refl _⟩
  | cons n rest ih =>
    intro deps visited d v h
    by_cases hv : n ∈ visited
    · rw [resolveStep_cons_mem hv] at h
      exact ih deps visited d v h
    · cases hfp : find_package db n with
      | none =>
        rw [resolveStep_cons_unknown hv hfp] at h
        obtain ⟨h1, h2⟩ := ih deps (visited ++ [n]) d v h
        exact ⟨h1, (ExtOf.append visited [n]).trans h2⟩
      | some p =>
        cases hr : recur p.depends deps (visited ++ [n]) with
        | none => rw [resolveStep_cons_found_none hv hfp hr] at h; exact absurd h (by simp)
        | some pr =>
          obtain ⟨deps1, visited2⟩ := pr
          rw [resolveStep_cons_found_some hv hfp hr] at h
          obtain ⟨hd1, hv1⟩ := hrec _ _ _ _ _ hr
          obtain ⟨hd2, hv2⟩ := ih _ _ d v h
          exact ⟨hd1.trans (ExtOf.trans pushDep_ext hd2),
            ((ExtOf.append visited [n]).trans hv1).trans hv2⟩

theorem extendsOK_resolve (db : Database) : ∀ fuel, ExtendsOK (resolve_deps_recursive db fuel) := by
  intro fuel
  induction fuel with
  | zero => exact extendsOK_step extendsOK_none
  | succ fuel ih => exact extendsOK_step ih

/-! ## Layer 2: provenance and soundness of listed names -/

/-- Every name a traversal adds to the output resolves in the repository, is
not installed, and stems from the dependency list being traversed or from
some repository package's dependency list. -/
def SoundOK (db : Database) (f : Resolver) : Prop :=
  ∀ names deps visited d v, f names deps visited = some (d, v) →
    ∀ z ∈ d, z ∈ deps ∨ (known db z ∧ get_installed db z = none ∧
      (z ∈ names ∨ ∃ q ∈ db.packages, z ∈ q.depends))

theorem soundOK_none {db : Database} : SoundOK db (fun _ _ _ => none) := by
  intro names deps visited d v h
  simp at h

theorem soundOK_step {db : Database} {recur : Resolver} (hrec : SoundOK db recur) :
    SoundOK db (resolveStep db recur) := by
  intro names
  induction names with
  | nil =>
    intro deps visited d v h z hz
    simp only [resolveStep] at h
    obtain rfl : deps = d := congrArg Prod.fst (Option.some.inj h)
    exact Or.inl hz
  | cons n rest ih =>
    intro deps visited d v h z hz
    by_cases hv : n ∈ visited
    · rw [resolveStep_cons_mem hv] at h
      rcases ih deps visited d v h z hz with h1 | ⟨h1, h2, h3 | h3⟩
      · exact Or.inl h1
      · exact Or.inr ⟨h1, h2, Or.inl (List.mem_cons_of_mem n h3)⟩
      · exact Or.inr ⟨h1, h2, Or.inr h3⟩
    · cases hfp : find_package db n with
      | none =>
        rw [resolveStep_cons_unknown hv hfp] at h
        rcases ih deps (visited ++ [n]) d v h z hz with h1 | ⟨h1, h2, h3 | h3⟩
        · exact Or.inl h1
        · exact Or.inr ⟨h1, h2, Or.inl (List.mem_cons_of_mem n h3)⟩
        · exact Or.inr ⟨h1, h2, Or.inr h3⟩
      | some p =>
        cases hr : recur p.depends deps (visited ++ [n]) with
        | none => rw [resolveStep_cons_found_none hv hfp hr] at h; exact absurd h (by simp)
        | some pr =>
          obtain ⟨deps1, visited2⟩ := pr
          rw [resolveStep_cons_found_some hv hfp hr] at h
          have hmem1 : ∀ y ∈ deps1, y ∈ deps ∨ (known db y ∧ get_installed db y = none ∧
              (y ∈ (n :: rest) ∨ ∃ q ∈ db.packages, y ∈ q.depends)) := by
            intro y hy
            rcases hrec _ _ _ _ _ hr y hy with h1 | ⟨h1, h2, h3 | h3⟩
            · exact Or.inl h1
            · exact Or.inr ⟨h1, h2, Or.inr ⟨p, find_package_mem hfp, h3⟩⟩
            · exact Or.inr ⟨h1, h2, Or.inr h3⟩
          rcases ih _ _ d v h z hz with h1 | ⟨h1, h2, h3 | h3⟩
          · by_cases hpush : get_installed db n = none ∧ n ∉ deps1
            · rw [pushDep_pos hpush] at h1
              rcases List.mem_append.mp h1 with h1 | h1
              · exact hmem1 z h1
              · have hz_eq : z = n := by simpa using h1
                rw [hz_eq]
                exact Or.inr ⟨known_of_find hfp, hpush.1, Or.inl (List.mem_cons_self n rest)⟩
            · rw [pushDep_neg hpush] at h1
              exact hmem1 z h1
          · exact Or.inr ⟨h1, h2, Or.inl (List.mem_cons_of_mem n h3)⟩
          · exact Or.inr ⟨h1, h2, Or.inr h3⟩

theorem soundOK_resolve (db : Database) : ∀ fuel, SoundOK db (resolve_deps_recursive db fuel) := by
  intro fuel
  induction fuel with
  | zero => exact soundOK_step soundOK_none
  | succ fuel ih => exact soundOK_step ih

/-- The output never repeats a name. -/
def NodupOK (f : Resolver) : Prop :=
  ∀ names deps visited d v, f names deps visited = some (d, v) → deps.Nodup → d.Nodup

theorem nodupOK_none : NodupOK (fun _ _ _ => none) := by
  intro names deps visited d v h
  simp at h

theorem nodupOK_step {db : Database} {recur : Resolver} (hrec : NodupOK recur) :
    NodupOK (resolveStep db recur) := by
  intro names
  induction names with
  | nil =>
    intro deps visited d v h hnd
    simp only [resolveStep] at h
    obtain rfl : deps = d := congrArg Prod.fst (Option.some.inj h)
    exact hnd
  | cons n rest ih =>
    intro deps visited d v h hnd
    by_cases hv : n ∈ visited
    · rw [resolveStep_cons_mem hv] at h
      exact ih deps visited d v h hnd
    · cases hfp : find_package db n with
      | none =>
        rw [resolveStep_cons_unknown hv hfp] at h
        exact ih deps (visited ++ [n]) d v h hnd
      | some p =>
        cases hr : recur p.depends deps (visited ++ [n]) with
        | none => rw [resolveStep_cons_found_none hv hfp hr] at h; exact absurd h (by simp)
        | some pr =>
          obtain ⟨deps1, visited2⟩ := pr
          rw [resolveStep_cons_found_some hv hfp hr] at h
          have hnd1 : deps1.Nodup := hrec _ _ _ _ _ hr hnd
          refine ih _ _ d v h ?_
          by_cases hpush : get_installed db n = none ∧ n ∉ deps1
          · rw [pushDep_pos hpush]
            simp [List.nodup_append, hnd1, hpush.2]
          · rw [pushDep_neg hpush]
            exact hnd1

theorem nodupOK_resolve (db : Database) : ∀ fuel, NodupOK (resolve_deps_recursive db fuel) := by
  intro fuel
  induction fuel with
  | zero => exact nodupOK_step nodupOK_none
  | succ fuel ih => exact nodupOK_step ih

/-! ## Layer 3: the fuel bound `dbFuel` suffices (termination) -/

/-- Number of repository package names not yet visited. -/
def unvisitedCount (db : Database) (visited : List String) : Nat :=
  ((db.packages.map (fun p => p.name)).filter (fun m => ¬ (m ∈ visited))).length

theorem filter_length_mono {p q : String → Bool} (h : ∀ x, p x = true → q x = true) :
    ∀ l : List String, (l.filter p).length ≤ (l.filter q).length := by
  intro l
  induction l with
  | nil => simp
  | cons a l ih =>
    by_cases hp : p a = true
    · rw [List.filter_cons_of_pos hp, List.filter_cons_of_pos (h a hp)]
      simpa using ih
    · rw [List.filter_cons_of_neg (by simpa using hp)]
      by_cases hq : q a = true
      · rw [List.filter_cons_of_pos hq]
        exact le_trans ih (Nat.le_succ _)
      · rw [List.filter_cons_of_neg (by simpa using hq)]
        exact ih

theorem filter_length_strict {p q : String → Bool} {n : String}
    (h : ∀ x, p x = true → q x = true) (hpn : ¬ p n = true) (hqn : q n = true) :
    ∀ l : List String, n ∈ l → (l.filter p).length < (l.filter q).length := by
  intro l
  induction l with
  | nil => simp
  | cons a l ih =>
    intro hmem
    rcases List.mem_cons.mp hmem with rfl | hmem
    · rw [List.filter_cons_of_neg (by simpa using hpn), List.filter_cons_of_pos hqn]
      exact Nat.lt_succ_of_le (filter_length_mono h l)
    · by_cases hp : p a = true
      · rw [List.filter_cons_of_pos hp, List.filter_cons_of_pos (h a hp)]
        simpa using ih hmem
      · rw [List.filter_cons_of_neg (by simpa using hp)]
        by_cases hq : q a = true
        · rw [List.filter_cons_of_pos hq]
          exact Nat.lt_succ_of_lt (ih hmem)
        · rw [List.filter_cons_of_neg (by simpa using hq)]
          exact ih hmem

theorem unvisitedCount_mono (db : Database) {v₁ v₂ : List String}
    (h : ∀ x, x ∈ v₁ → x ∈ v₂) : unvisitedCount db v₂ ≤ unvisitedCount db v₁ := by
  refine filter_length_mono ?_ _
  intro x hx
  simp only [decide_eq_true_eq] at hx ⊢
  intro hx1
  exact hx (h x hx1)

theorem unvisitedCount_strict (db : Database) {visited : List String} {n : String}
    (hn : n ∈ db.packages.map (fun p => p.name)) (hv : n ∉ visited) :
    unvisitedCount db (visited ++ [n]) < unvisitedCount db visited := by
  refine filter_length_strict ?_ ?_ ?_ _ hn
  · intro x hx
    simp only [decide_eq_true_eq, List.mem_append] at hx ⊢
    intro hx1
    exact hx (Or.inl hx1)
  · simp
  · simpa using hv

theorem unvisitedCount_pos (db : Database) {visited : List String} {n : String}
    (hn : n ∈ db.packages.map (fun p => p.name)) (hv : n ∉ visited) :
    0 < unvisitedCount db visited := by
  have : n ∈ (db.packages.map (fun p => p.name)).filter (fun m => ¬ (m ∈ visited)) :=
    List.mem_filter.mpr ⟨hn, by simpa using hv⟩
  exact List.length_pos.mpr (List.ne_nil_of_mem this)

theorem find_package_name_mem {db : Database} {n : String} {p : PackageInfo}
    (h : find_package db n = some p) : n ∈ db.packages.map (fun q => q.name) :=
  List.mem_map.mpr ⟨p, find_package_mem h, find_package_name h⟩

/-- The traversal returns a result whenever the fuel dominates the number of
unvisited repository names. -/
def SuffOK (db : Database) (k : Nat) (f : Resolver) : Prop :=
  ∀ names deps visited, unvisitedCount db visited ≤ k → (f names deps visited).isSome

theorem suffOK_zero (db : Database) (recur : Resolver) : SuffOK db 0 (resolveStep db recur) := by
  intro names
  induction names with
  | nil =>
    intro deps visited _
    simp [resolveStep]
  | cons n rest ih =>
    intro deps visited hcount
    by_cases hv : n ∈ visited
    · rw [resolveStep_cons_mem hv]
      exact ih deps visited hcount
    · cases hfp : find_package db n with
      | none =>
        rw [resolveStep_cons_unknown hv hfp]
        refine ih deps (visited ++ [n]) (le_trans (unvisitedCount_mono db ?_) hcount)
        intro x hx
        exact List.mem_append_left _ hx
      | some p =>
        have := unvisitedCount_pos db (find_package_name_mem hfp) hv
        omega

theorem suffOK_step {db : Database} {k : Nat} {recur : Resolver}
    (hext : ExtendsOK recur) (hrec : SuffOK db k recur) :
    SuffOK db (k + 1) (resolveStep db recur) := by
  intro names
  induction names with
  | nil =>
    intro deps visited _
    simp [resolveStep_nil]
  | cons n rest ih =>
    intro deps visited hcount
    by_cases hv : n ∈ visited
    · rw [resolveStep_cons_mem hv]
      exact ih deps visited hcount
    · cases hfp : find_package db n with
      | none =>
        rw [resolveStep_cons_unknown hv hfp]
        refine ih deps (visited ++ [n]) (le_trans (unvisitedCount_mono db ?_) hcount)
        intro x hx
        exact List.mem_append_left _ hx
      | some p =>
        have hdec : unvisitedCount db (visited ++ [n]) < unvisitedCount db visited :=
          unvisitedCount_strict db (find_package_name_mem hfp) hv
        have hrk : unvisitedCount db (visited ++ [n]) ≤ k := by omega
        have hsome := hrec p.depends deps (visited ++ [n]) hrk
        cases hr : recur p.depends deps (visited ++ [n]) with
        | none => rw [hr] at hsome; simp at hsome
        | some pr =>
          obtain ⟨deps1, visited2⟩ := pr
          rw [resolveStep_cons_found_some hv hfp hr]
          obtain ⟨t, ht⟩ := (hext _ _ _ _ _ hr).2
          refine ih _ visited2 ?_
          have hmono : unvisitedCount db visited2 ≤ unvisitedCount db (visited ++ [n]) := by
            refine unvisitedCount_mono db ?_
            intro x hx
            rw [ht]
            exact List.mem_append_left _ hx
          omega

theorem suffOK_resolve (db : Database) :
    ∀ fuel, SuffOK db fuel (resolve_deps_recursive db fuel) := by
  intro fuel
  induction fuel with
  | zero => exact suffOK_zero db _
  | succ fuel ih => exact suffOK_step (extendsOK_resolve db fuel) ih

theorem unvisitedCount_nil (db : Database) : unvisitedCount db [] = dbFuel db := by
  simp [unvisitedCount, dbFuel]

/-- The computed fuel bound always suffices: the guarded traversal returns a
result on every input. -/
theorem resolve_some (db : Database) (pkg : PackageInfo) :
    (resolve_deps_recursive db (dbFuel db) pkg.depends [] []).isSome := by
  refine suffOK_resolve db (dbFuel db) pkg.depends [] [] ?_
  rw [unvisitedCount_nil]

/-- Unfolding of `resolve_deps` through the underlying traversal. -/
theorem resolve_deps_eq (db : Database) (pkg : PackageInfo) :
    ∃ v, resolve_deps_recursive db (dbFuel db) pkg.depends [] [] =
      some (resolve_deps db pkg, v) := by
  have h := resolve_some db pkg
  cases hr : resolve_deps_recursive db (dbFuel db) pkg.depends [] [] with
  | none => rw [hr] at h; simp at h
  | some pr =>
    obtain ⟨d, v⟩ := pr
    refine ⟨v, ?_⟩
    simp [resolve_deps, hr]

/-! ## Layer 4: full correctness of the traversal on acyclic graphs -/

theorem depEdge_depends {db : Database} {n c : String} {p : PackageInfo}
    (hfp : find_package db n = some p) (hc : DepEdge db n c) : c ∈ p.depends := by
  obtain ⟨p', hp', hcp⟩ := hc
  rw [hfp] at hp'
  obtain rfl : p = p' := Option.some.inj hp'
  exact hcp

/-- A name on the ghost stack that reappears in the dependency list currently
being traversed closes a dependency cycle. -/
theorem stack_no_cycle {db : Database} {stack : List String} {n : String}
    (hA : Acyclic db) (hn : n ∈ stack)
    (htop : ∀ t s, stack = t :: s → DepEdge db t n)
    (hre : ∀ x ∈ stack, ∀ t s, stack = t :: s → Reaches db x t) : False := by
  cases stack with
  | nil => exact absurd hn (List.not_mem_nil n)
  | cons t s =>
    have hedge : DepEdge db t n := htop t s rfl
    have hr : Reaches db n t := hre n hn t s rfl
    exact hA n (Relation.TransGen.tail' hr hedge)

theorem pushDep_processed {db : Database} {n : String} {p : PackageInfo} {deps1 : List String}
    (hfp : find_package db n = some p) (hcc1 : ∀ m ∈ p.depends, Processed db deps1 m) :
    Processed db (pushDep db n deps1) n := by
  intro z hz hk hni
  rcases Relation.ReflTransGen.cases_head hz with heq | ⟨c, hc, hcz⟩
  · rw [← heq] at hni ⊢
    by_cases hmem : n ∈ deps1
    · exact pushDep_ext.mem hmem
    · rw [pushDep_pos ⟨hni, hmem⟩]
      simp
  · exact pushDep_ext.mem (hcc1 c (depEdge_depends hfp hc) z hcz hk hni)

theorem pushDep_sound {db : Database} {n : String} {p : PackageInfo} {deps1 : List String}
    (hfp : find_package db n = some p)
    (hsound1 : ∀ q ∈ deps1, known db q ∧ get_installed db q = none) :
    ∀ q ∈ pushDep db n deps1, known db q ∧ get_installed db q = none := by
  intro q hq
  by_cases hpush : get_installed db n = none ∧ n ∉ deps1
  · rw [pushDep_pos hpush] at hq
    rcases List.mem_append.mp hq with hq | hq
    · exact hsound1 q hq
    · have hq_eq : q = n := by simpa using hq
      rw [hq_eq]
      exact ⟨known_of_find hfp, hpush.1⟩
  · rw [pushDep_neg hpush] at hq
    exact hsound1 q hq

theorem pushDep_nodup {db : Database} {n : String} {deps1 : List String}
    (hnd1 : deps1.Nodup) : (pushDep db n deps1).Nodup := by
  by_cases hpush : get_installed db n = none ∧ n ∉ deps1
  · rw [pushDep_pos hpush]
    simp [List.nodup_append, hnd1, hpush.2]
  · rw [pushDep_neg hpush]
    exact hnd1

theorem pushDep_ordClosed {db : Database} {n : String} {p : PackageInfo} {deps1 : List String}
    (hfp : find_package db n = some p) (hcc1 : ∀ m ∈ p.depends, Processed db deps1 m)
    (hord1 : OrdClosed db deps1) : OrdClosed db (pushDep db n deps1) := by
  by_cases hpush : get_installed db n = none ∧ n ∉ deps1
  case neg =>
    rw [pushDep_neg hpush]
    exact hord1
  case pos =>
    rw [pushDep_pos hpush]
    intro q hq z htr hk hni
    rcases List.mem_append.mp hq with hq | hq
    · obtain ⟨hz1, hidx⟩ := hord1 q hq z htr hk hni
      refine ⟨List.mem_append_left _ hz1, ?_⟩
      rw [List.indexOf_append_of_mem hz1, List.indexOf_append_of_mem hq]
      exact hidx
    · have hq_eq : q = n := by simpa using hq
      rw [hq_eq] at htr
      obtain ⟨c, hc, hcz⟩ := (Relation.TransGen.head'_iff).mp htr
      have hz1 : z ∈ deps1 := hcc1 c (depEdge_depends hfp hc) z hcz hk hni
      refine ⟨List.mem_append_left _ hz1, ?_⟩
      rw [hq_eq, List.indexOf_append_of_mem hz1, List.indexOf_append_of_not_mem hpush.2]
      have hlt : List.indexOf z deps1 < deps1.length := List.indexOf_lt_length.mpr hz1
      simp only [List.indexOf_cons_self]
      omega

/-- Full invariant of the depth-first traversal, relative to a ghost stack of
in-progress names: the stack lists the names whose dependency lists are being
traversed by the enclosing frames, innermost first.  Visited names off the
stack are fully processed; the accumulator is duplicate-free, contains only
uninstalled repository names, and is closed under reachable uninstalled
repository dependencies with dependencies listed before dependents. -/
def DFSOK (db : Database) (f : Resolver) : Prop :=
  ∀ names deps visited stack d v,
    f names deps visited = some (d, v) →
    (∀ x ∈ stack, x ∈ visited) →
    (∀ n ∈ names, ∀ t s, stack = t :: s → DepEdge db t n) →
    (∀ x ∈ stack, ∀ t s, stack = t :: s → Reaches db x t) →
    (∀ x ∈ visited, x ∉ stack → Processed db deps x) →
    (∀ q ∈ deps, known db q ∧ get_installed db q = none) →
    deps.Nodup →
    OrdClosed db deps →
    ExtOf deps d ∧ ExtOf visited v ∧
    (∀ n ∈ names, Processed db d n) ∧
    (∀ z ∈ d, z ∈ deps ∨ (known db z ∧ get_installed db z = none ∧
      ∃ m ∈ names, Reaches db m z)) ∧
    (∀ x ∈ v, x ∉ stack → Processed db d x) ∧
    (∀ q ∈ d, known db q ∧ get_installed db q = none) ∧
    d.Nodup ∧ OrdClosed db d

theorem dfsOK_none {db : Database} : DFSOK db (fun _ _ _ => none) := by
  intro names deps visited stack d v h
  simp at h

theorem dfsOK_step {db : Database} (hA : Acyclic db) {recur : Resolver}
    (hrec : DFSOK db recur) : DFSOK db (resolveStep db recur) := by
  intro names
  induction names with
  | nil =>
    intro deps visited stack d v h hsub htop hre hproc hsound hnd hord
    rw [resolveStep_nil] at h
    obtain ⟨rfl, rfl⟩ := Prod.mk.injEq deps visited d v ▸ Option.some.inj h
    refine ⟨ExtOf.refl _, ExtOf.refl _, ?_, ?_, hproc, hsound, hnd, hord⟩
    · intro m hm
      exact absurd hm (List.not_mem_nil m)
    · intro z hz
      exact Or.inl hz
  | cons n rest ih =>
    intro deps visited stack d v h hsub htop hre hproc hsound hnd hord
    by_cases hv : n ∈ visited
    · rw [resolveStep_cons_mem hv] at h
      have hns : n ∉ stack := by
        intro hns
        exact stack_no_cycle hA hns (fun t s hts => htop n (List.mem_cons_self n rest) t s hts) hre
      have hprn : Processed db deps n := hproc n hv hns
      obtain ⟨hd, hvv, hcc, hce, hpost, hsoundd, hndd, hordd⟩ :=
        ih deps visited stack d v h hsub
          (fun m hm => htop m (List.mem_cons_of_mem n hm)) hre hproc hsound hnd hord
      refine ⟨hd, hvv, ?_, ?_, hpost, hsoundd, hndd, hordd⟩
      · intro m hm
        rcases List.mem_cons.mp hm with hm_eq | hm
        · rw [hm_eq]
          intro z hz hk hni
          exact hd.mem (hprn z hz hk hni)
        · exact hcc m hm
      · intro z hz
        rcases hce z hz with h1 | ⟨h1, h2, m, hm, h3⟩
        · exact Or.inl h1
        · exact Or.inr ⟨h1, h2, m, List.mem_cons_of_mem n hm, h3⟩
    · cases hfp : find_package db n with
      | none =>
        rw [resolveStep_cons_unknown hv hfp] at h
        have hns : n ∉ stack := fun hns => hv (hsub n hns)
        have hprn : Processed db deps n := by
          intro z hz hk hni
          rcases Relation.ReflTransGen.cases_head hz with heq | ⟨c, hc, _⟩
          · rw [← heq] at hk
            rw [known, hfp] at hk
            exact absurd hk (by simp)
          · obtain ⟨p', hp', _⟩ := hc
            rw [hfp] at hp'
            exact absurd hp' (by simp)
        have hproc' : ∀ x ∈ visited ++ [n], x ∉ stack → Processed db deps x := by
          intro x hx hxs
          rcases List.mem_append.mp hx with hx | hx
          · exact hproc x hx hxs
          · have hx_eq : x = n := by simpa using hx
            rw [hx_eq]
            exact hprn
        obtain ⟨hd, hvv, hcc, hce, hpost, hsoundd, hndd, hordd⟩ :=
          ih deps (visited ++ [n]) stack d v h
            (fun x hx => List.mem_append_left _ (hsub x hx))
            (fun m hm => htop m (List.mem_cons_of_mem n hm)) hre hproc' hsound hnd hord
        refine ⟨hd, (ExtOf.append visited [n]).trans hvv, ?_, ?_, ?_, hsoundd, hndd, hordd⟩
        · intro m hm
          rcases List.mem_cons.mp hm with hm_eq | hm
          · rw [hm_eq]
            intro z hz hk hni
            exact hd.mem (hprn z hz hk hni)
          · exact hcc m hm
        · intro z hz
          rcases hce z hz with h1 | ⟨h1, h2, m, hm, h3⟩
          · exact Or.inl h1
          · exact Or.inr ⟨h1, h2, m, List.mem_cons_of_mem n hm, h3⟩
        · intro x hx hxs
          exact hpost x hx hxs
      | some p =>
        cases hr : recur p.depends deps (visited ++ [n]) with
        | none =>
          rw [resolveStep_cons_found_none hv hfp hr] at h
          exact absurd h (by simp)
        | some pr =>
          obtain ⟨deps1, visited2⟩ := pr
          rw [resolveStep_cons_found_some hv hfp hr] at h
          have hns : n ∉ stack := fun hns => hv (hsub n hns)
          have hsub' : ∀ x ∈ n :: stack, x ∈ visited ++ [n] := by
            intro x hx
            rcases List.mem_cons.mp hx with hx_eq | hx
            · rw [hx_eq]; simp
            · exact List.mem_append_left _ (hsub x hx)
          have htop' : ∀ m ∈ p.depends, ∀ t s, (n :: stack) = t :: s → DepEdge db t m := by
            intro m hm t s hts
            injection hts with h1 _
            rw [← h1]
            exact ⟨p, hfp, hm⟩
          have hre' : ∀ x ∈ n :: stack, ∀ t s, (n :: stack) = t :: s → Reaches db x t := by
            intro x hx t s hts
            injection hts with h1 _
            rw [← h1]
            rcases List.mem_cons.mp hx with hx_eq | hx
            · rw [hx_eq]
              exact Relation.ReflTransGen.refl
            · cases hstk : stack with
              | nil =>
                rw [hstk] at hx
                exact absurd hx (List.not_mem_nil x)
              | cons t0 s0 =>
                have hxt0 : Reaches db x t0 := hre x hx t0 s0 hstk
                have hedge : DepEdge db t0 n :=
                  htop n (List.mem_cons_self n rest) t0 s0 hstk
                exact hxt0.trans (Relation.ReflTransGen.single hedge)
          have hproc' : ∀ x ∈ visited ++ [n], x ∉ n :: stack → Processed db deps x := by
            intro x hx hxs
            rcases List.mem_append.mp hx with hx | hx
            · exact hproc x hx (fun hmem => hxs (List.mem_cons_of_mem n hmem))
            · have hx_eq : x = n := by simpa using hx
              exact absurd (by rw [hx_eq]; exact List.mem_cons_self n stack) hxs
          obtain ⟨hd1, hv1, hcc1, hce1, hpost1, hsound1, hnd1, hord1⟩ :=
            hrec p.depends deps (visited ++ [n]) (n :: stack) deps1 visited2 hr
              hsub' htop' hre' hproc' hsound hnd hord
          have hprn : Processed db (pushDep db n deps1) n := pushDep_processed hfp hcc1
          obtain ⟨hd2, hv2, hcc2, hce2, hpost2, hsound2, hnd2, hord2⟩ :=
            ih (pushDep db n deps1) visited2 stack d v h
              (fun x hx => hv1.mem (List.mem_append_left _ (hsub x hx)))
              (fun m hm => htop m (List.mem_cons_of_mem n hm)) hre
              (by
                intro x hx hxs
                by_cases hxn : x = n
                · rw [hxn]
                  exact hprn
                · have hx1 : Processed db deps1 x := by
                    refine hpost1 x hx ?_
                    intro hmem
                    rcases List.mem_cons.mp hmem with hx_eq | hx_in
                    · exact hxn hx_eq
                    · exact hxs hx_in
                  intro z hz hk hni
                  exact pushDep_ext.mem (hx1 z hz hk hni))
              (pushDep_sound hfp hsound1) (pushDep_nodup hnd1)
              (pushDep_ordClosed hfp hcc1 hord1)
          refine ⟨hd1.trans (ExtOf.trans pushDep_ext hd2),
            ((ExtOf.append visited [n]).trans hv1).trans hv2, ?_, ?_, hpost2, hsound2, hnd2, hord2⟩
          · intro m hm
            rcases List.mem_cons.mp hm with hm_eq | hm
            · rw [hm_eq]
              intro z hz hk hni
              exact hd2.mem (hprn z hz hk hni)
            · exact hcc2 m hm
          · intro z hz
            rcases hce2 z hz with h1 | ⟨h1, h2, m, hm, h3⟩
            · rcases pushDep_cases h1 with h1 | h1
              · rcases hce1 z h1 with h2 | ⟨h2, h3, m, hm, h4⟩
                · exact Or.inl h2
                · refine Or.inr ⟨h2, h3, n, List.mem_cons_self n rest, ?_⟩
                  exact Relation.ReflTransGen.head ⟨p, hfp, hm⟩ h4
              · refine Or.inr ⟨?_, ?_, n, List.mem_cons_self n rest,
                  by rw [h1]; exact Relation.ReflTransGen.refl⟩
                · rw [h1]; exact known_of_find hfp
                · rw [h1]
                  rcases hsound2 z hz with ⟨_, h4⟩
                  rw [← h1]; exact h4
            · exact Or.inr ⟨h1, h2, m, List.mem_cons_of_mem n hm, h3⟩

theorem dfsOK_resolve (db : Database) (hA : Acyclic db) :
    ∀ fuel, DFSOK db (resolve_deps_recursive db fuel) := by
  intro fuel
  induction fuel with
  | zero => exact dfsOK_step hA dfsOK_none
  | succ fuel ih => exact dfsOK_step hA ih

/-! ## Top-level properties of `resolve_deps` -/

/-- Every listed name resolves in the repository, is not installed, and
occurs in the target's or some repository package's dependency list. -/
theorem resolve_deps_sound (db : Database) (pkg : PackageInfo) :
    ∀ z ∈ resolve_deps db pkg, known db z ∧ get_installed db z = none ∧
      (z ∈ pkg.depends ∨ ∃ q ∈ db.packages, z ∈ q.depends) := by
  intro z hz
  obtain ⟨v, hv⟩ := resolve_deps_eq db pkg
  rcases soundOK_resolve db (dbFuel db) pkg.depends [] [] _ v hv z hz with h1 | h1
  · exact absurd h1 (List.not_mem_nil z)
  · exact h1

/-- The output never repeats a name, cycles or not. -/
theorem resolve_deps_nodup (db : Database) (pkg : PackageInfo) :
    (resolve_deps db pkg).Nodup := by
  obtain ⟨v, hv⟩ := resolve_deps_eq db pkg
  exact nodupOK_resolve db (dbFuel db) pkg.depends [] [] _ v hv List.nodup_nil

/-- Full characterisation of `resolve_deps` on an acyclic dependency graph:
no duplicates, membership is exactly reachability of an uninstalled
repository package from the target's dependency list, and every listed
dependency precedes every listed package that (transitively) depends on
it. -/
theorem resolve_deps_correct (db : Database) (pkg : PackageInfo) (hA : Acyclic db) :
    (resolve_deps db pkg).Nodup ∧
    (∀ n, n ∈ resolve_deps db pkg ↔
      (known db n ∧ get_installed db n = none ∧ ∃ m ∈ pkg.depends, Reaches db m n)) ∧
    (∀ q r, q ∈ resolve_deps db pkg → r ∈ resolve_deps db pkg →
      Relation.TransGen (DepEdge db) q r →
      List.indexOf r (resolve_deps db pkg) < List.indexOf q (resolve_deps db pkg)) := by
  obtain ⟨v, hv⟩ := resolve_deps_eq db pkg
  obtain ⟨hd, hvv, hcc, hce, hpost, hsoundd, hndd, hordd⟩ :=
    dfsOK_resolve db hA (dbFuel db) pkg.depends [] [] [] _ v hv
      (fun x hx => absurd hx (List.not_mem_nil x))
      (fun m _ t s hts => absurd hts (by simp))
      (fun x hx => absurd hx (List.not_mem_nil x))
      (fun x hx => absurd hx (List.not_mem_nil x))
      (fun q hq => absurd hq (List.not_mem_nil q))
      List.nodup_nil
      (fun q hq => absurd hq (List.not_mem_nil q))
  refine ⟨hndd, ?_, ?_⟩
  · intro n
    constructor
    · intro hn
      rcases hce n hn with h1 | ⟨h1, h2, m, hm, h3⟩
      · exact absurd h1 (List.not_mem_nil n)
      · exact ⟨h1, h2, m, hm, h3⟩
    · rintro ⟨hk, hni, m, hm, hr⟩
      exact hcc m hm n hr hk hni
  · intro q r hq hr htr
    obtain ⟨hk, hni⟩ := hsoundd r hr
    exact (hordd q hq r htr hk hni).2

/-- Exhibiting a rank strictly increased by every dependency edge shows the
graph acyclic. -/
theorem acyclic_of_rank (db : Database) (r : String → Nat)
    (h : ∀ a b, DepEdge db a b → r a < r b) : Acyclic db := by
  intro n hn
  have hmono : ∀ a b, Relation.TransGen (DepEdge db) a b → r a < r b := by
    intro a b hab
    induction hab with
    | single h1 => exact h _ _ h1
    | tail _ h2 ih => exact lt_trans ih (h _ _ h2)
  exact lt_irrefl (r n) (hmono n n hn)

/-! ## The installed mapping: lookup, insert, remove -/

/-- The hash-map invariant of `installed`: association-list keys are unique. -/
def keysNodup (db : Database) : Prop :=
  (db.installed.map Prod.fst).Nodup

theorem find?_replace_self (l : List (String × InstalledPackage)) (k : String)
    (v : InstalledPackage) (h : l.any (fun kv => kv.1 == k) = true) :
    (l.map (fun kv => if kv.1 == k then (k, v) else kv)).find? (fun kv => kv.1 == k) =
      some (k, v) := by
  induction l with
  | nil => simp at h
  | cons kv t ih =>
    by_cases hk : kv.1 = k
    · rw [List.map_cons, if_pos (by simp [hk])]
      exact List.find?_cons_of_pos _ (by simp)
    · rw [List.map_cons, if_neg (by simp [hk])]
      rw [List.find?_cons_of_neg _ (by simp [hk])]
      refine ih ?_
      rcases List.any_eq_true.mp h with ⟨kv', hkv', hk'⟩
      rcases List.mem_cons.mp hkv' with heq | hkv'
      · exact absurd (by simpa using (heq ▸ hk' : (kv.1 == k) = true)) hk
      · exact List.any_eq_true.mpr ⟨kv', hkv', hk'⟩

theorem find?_replace_ne (l : List (String × InstalledPackage)) (k : String)
    (v : InstalledPackage) (m : String) (hne : ¬ m = k) :
    (l.map (fun kv => if kv.1 == k then (k, v) else kv)).find? (fun kv => kv.1 == m) =
      l.find? (fun kv => kv.1 == m) := by
  induction l with
  | nil => simp
  | cons kv t ih =>
    by_cases hk : kv.1 = k
    · rw [List.map_cons, if_pos (by simp [hk])]
      rw [List.find?_cons_of_neg _ (by simp; intro h; exact hne h.symm),
        List.find?_cons_of_neg _ (by simp [hk]; intro h; rw [← h] at hne; exact hne rfl)]
      exact ih
    · rw [List.map_cons, if_neg (by simp [hk])]
      by_cases hm : kv.1 = m
      · rw [List.find?_cons_of_pos _ (by simp [hm]), List.find?_cons_of_pos _ (by simp [hm])]
      · rw [List.find?_cons_of_neg _ (by simp [hm]), List.find?_cons_of_neg _ (by simp [hm])]
        exact ih

/-- Lookup after `record_install`: the recorded entry under the package's
name, anything else unchanged. -/
theorem get_installed_record (db : Database) (pkg : PackageInfo) (now : String) (m : String) :
    get_installed (record_install db pkg now) m =
      if m = pkg.name then some ⟨pkg.name, pkg.version, now, []⟩ else get_installed db m := by
  show (((insertInstalled db.installed pkg.name _).find? (fun kv => kv.1 == m)).map Prod.snd) = _
  unfold insertInstalled
  by_cases hany : db.installed.any (fun kv => kv.1 == pkg.name) = true
  · rw [if_pos hany]
    by_cases hm : m = pkg.name
    · rw [if_pos hm, hm, find?_replace_self _ _ _ hany]
      rfl
    · rw [if_neg hm, find?_replace_ne _ _ _ _ hm]
      rfl
  · rw [if_neg hany, List.find?_append]
    have hnone : ∀ kv ∈ db.installed, ¬ (kv.1 == pkg.name) = true := by
      intro kv hkv hk
      exact hany (List.any_eq_true.mpr ⟨kv, hkv, hk⟩)
    by_cases hm : m = pkg.name
    · have h1 : db.installed.find? (fun kv => kv.1 == m) = none := by
        refine List.find?_eq_none.mpr ?_
        intro kv hkv
        rw [hm]
        exact hnone kv hkv
      rw [h1, if_pos hm]
      simp [List.find?_cons_of_pos, hm]
    · have h2 : List.find? (fun kv => kv.1 == m) [(pkg.name, (⟨pkg.name, pkg.version, now, []⟩ :
          InstalledPackage))] = none := by
        refine List.find?_eq_none.mpr ?_
        intro kv hkv
        have : kv = (pkg.name, (⟨pkg.name, pkg.version, now, []⟩ : InstalledPackage)) := by
          simpa using hkv
        rw [this]
        simp
        intro h
        exact hm h.symm
      rw [h2, if_neg hm, Option.or_none]
      rfl

theorem record_install_packages (db : Database) (pkg : PackageInfo) (now : String) :
    (record_install db pkg now).packages = db.packages := rfl

theorem keys_replace (l : List (String × InstalledPackage)) (k : String) (v : InstalledPackage) :
    (l.map (fun kv => if kv.1 == k then (k, v) else kv)).map Prod.fst = l.map Prod.fst := by
  induction l with
  | nil => simp
  | cons kv t ih =>
    by_cases hk : kv.1 = k
    · rw [List.map_cons, if_pos (by simp [hk]), List.map_cons, List.map_cons, ih]
      simp [hk]
    · rw [List.map_cons, if_neg (by simp [hk]), List.map_cons, List.map_cons, ih]

theorem keysNodup_record {db : Database} (pkg : PackageInfo) (now : String)
    (h : keysNodup db) : keysNodup (record_install db pkg now) := by
  show ((insertInstalled db.installed pkg.name _).map Prod.fst).Nodup
  unfold insertInstalled
  by_cases hany : db.installed.any (fun kv => kv.1 == pkg.name) = true
  · rw [if_pos hany, keys_replace]
    exact h
  · rw [if_neg hany, List.map_append]
    have hnot : pkg.name ∉ db.installed.map Prod.fst := by
      intro hmem
      rcases List.mem_map.mp hmem with ⟨kv, hkv, hk⟩
      exact hany (List.any_eq_true.mpr ⟨kv, hkv, by simp [hk]⟩)
    have h' : (db.installed.map Prod.fst).Nodup := h
    simp [List.nodup_append, h', hnot]

/-- With unique keys, membership in the association list is lookup. -/
theorem find?_key_of_mem {l : List (String × InstalledPackage)} {n : String}
    {i : InstalledPackage} (hnd : (l.map Prod.fst).Nodup) (hmem : (n, i) ∈ l) :
    l.find? (fun kv => kv.1 == n) = some (n, i) := by
  induction l with
  | nil => simp at hmem
  | cons kv t ih =>
    rcases List.mem_cons.mp hmem with heq | hmem
    · rw [← heq]
      exact List.find?_cons_of_pos _ (by simp)
    · have hn_t : n ∈ t.map Prod.fst := List.mem_map.mpr ⟨(n, i), hmem, rfl⟩
      rw [List.map_cons] at hnd
      have hkv : kv.1 ∉ t.map Prod.fst := (List.nodup_cons.mp hnd).1
      have hne : ¬ (kv.1 == n) = true := by
        simp only [beq_iff_eq]
        intro heq
        rw [heq] at hkv
        exact hkv hn_t
      have hstep : List.find? (fun kv => kv.1 == n) (kv :: t) =
          List.find? (fun kv => kv.1 == n) t := List.find?_cons_of_neg _ hne
      rw [hstep]
      exact ih (List.nodup_cons.mp hnd).2 hmem

theorem get_installed_of_mem {db : Database} {n : String} {i : InstalledPackage}
    (hnd : keysNodup db) (hmem : (n, i) ∈ db.installed) :
    get_installed db n = some i := by
  show ((db.installed.find? (fun kv => kv.1 == n)).map Prod.snd) = some i
  rw [find?_key_of_mem hnd hmem]
  rfl

theorem mem_of_get_installed {db : Database} {n : String} {i : InstalledPackage}
    (h : get_installed db n = some i) : (n, i) ∈ db.installed := by
  unfold get_installed at h
  rcases Option.map_eq_some'.mp h with ⟨kv, hkv, hsnd⟩
  have h1 : kv.1 = n := by simpa using List.find?_some hkv
  have h2 : kv ∈ db.installed := List.mem_of_find?_eq_some hkv
  have : kv = (n, i) := by
    cases kv
    simp_all
  rw [← this]
  exact h2

/-! ## The upgrade planner -/

theorem find_package_congr {d db : Database} (h : d.packages = db.packages) (n : String) :
    find_package d n = find_package db n := by
  unfold find_package
  rw [h]

theorem upgradeEntry_no_pkg {db : Database} {kv : String × InstalledPackage}
    (hfp : find_package db kv.1 = none) : upgradeEntry db kv = none := by
  simp [upgradeEntry, hfp]

theorem upgradeEntry_same {db : Database} {kv : String × InstalledPackage} {p : PackageInfo}
    (hfp : find_package db kv.1 = some p) (hveq : p.version = kv.2.version) :
    upgradeEntry db kv = none := by
  simp [upgradeEntry, hfp, hveq]

theorem upgradeEntry_diff {db : Database} {kv : String × InstalledPackage} {p : PackageInfo}
    (hfp : find_package db kv.1 = some p) (hveq : ¬ p.version = kv.2.version) :
    upgradeEntry db kv = some (kv.1, kv.2.version, p.version) := by
  simp [upgradeEntry, hfp, hveq]

/-- Membership in `check_upgrades`: exactly the installed names that resolve
in the repository with a byte-wise different version string. -/
theorem mem_check_upgrades {db : Database} (hnd : keysNodup db) {n iv rv : String} :
    (n, iv, rv) ∈ check_upgrades db ↔
      ∃ inst, get_installed db n = some inst ∧ inst.version = iv ∧
        ∃ p, find_package db n = some p ∧ p.version = rv ∧ rv ≠ iv := by
  unfold check_upgrades
  rw [List.mem_filterMap]
  constructor
  · rintro ⟨kv, hkv, hf⟩
    cases hfp : find_package db kv.1 with
    | none => rw [upgradeEntry_no_pkg hfp] at hf; simp at hf
    | some p =>
      by_cases hveq : p.version = kv.2.version
      · rw [upgradeEntry_same hfp hveq] at hf
        simp at hf
      · rw [upgradeEntry_diff hfp hveq] at hf
        have h3 : kv.1 = n ∧ kv.2.version = iv ∧ p.version = rv := by
          simpa using hf
        obtain ⟨he1, he2, he3⟩ := h3
        refine ⟨kv.2, ?_, he2, p, ?_, he3, ?_⟩
        · rw [← he1]
          exact get_installed_of_mem hnd (by rw [← Prod.mk.eta (p := kv)] at hkv; exact hkv)
        · rw [← he1]
          exact hfp
        · rw [← he3, ← he2]
          exact hveq
  · rintro ⟨inst, hinst, hiv, p, hp, hrv, hne⟩
    refine ⟨(n, inst), mem_of_get_installed hinst, ?_⟩
    have hne' : ¬ p.version = inst.version := by
      rw [hrv, hiv]
      exact hne
    rw [@upgradeEntry_diff db (n, inst) p hp hne']
    simp [hiv, hrv]

/-- The step function folded by `applyUpgrades`. -/
def upgradeStep (now : String) (d : Database) (t : String × String × String) : Database :=
  match find_package d t.1 with
  | some p => record_install d p now
  | none => d

theorem applyUpgrades_eq_foldl (db : Database) (now : String) :
    applyUpgrades db now = (check_upgrades db).foldl (upgradeStep now) db := rfl

theorem upgradeStep_packages (now : String) (d : Database) (t : String × String × String) :
    (upgradeStep now d t).packages = d.packages := by
  unfold upgradeStep
  cases find_package d t.1 <;> rfl

theorem fold_packages (now : String) :
    ∀ (L : List (String × String × String)) (d : Database),
      (L.foldl (upgradeStep now) d).packages = d.packages := by
  intro L
  induction L with
  | nil => intro d; rfl
  | cons t rest ih =>
    intro d
    rw [List.foldl_cons, ih, upgradeStep_packages]

theorem fold_keysNodup (now : String) :
    ∀ (L : List (String × String × String)) (d : Database),
      keysNodup d → keysNodup (L.foldl (upgradeStep now) d) := by
  intro L
  induction L with
  | nil => intro d h; exact h
  | cons t rest ih =>
    intro d h
    rw [List.foldl_cons]
    refine ih _ ?_
    unfold upgradeStep
    cases hfp : find_package d t.1 with
    | none => exact h
    | some p => exact keysNodup_record p now h

theorem fold_lookup_unchanged (now : String) :
    ∀ (L : List (String × String × String)) (d : Database) (m : String),
      m ∉ L.map (fun t => t.1) →
      get_installed (L.foldl (upgradeStep now) d) m = get_installed d m := by
  intro L
  induction L with
  | nil => intro d m _; rfl
  | cons t rest ih =>
    intro d m hm
    rw [List.map_cons] at hm
    have hm1 : ¬ m = t.1 := fun he => hm (by rw [he]; exact List.mem_cons_self _ _)
    have hm2 : m ∉ rest.map (fun t => t.1) := fun he => hm (List.mem_cons_of_mem _ he)
    rw [List.foldl_cons, ih _ m hm2]
    unfold upgradeStep
    cases hfp : find_package d t.1 with
    | none => rfl
    | some p =>
      rw [get_installed_record]
      have hpn : p.name = t.1 := find_package_name hfp
      rw [if_neg (by rw [hpn]; exact hm1)]

theorem fold_lookup_hit (now : String) (db0 : Database) :
    ∀ (L : List (String × String × String)) (d : Database) (m : String) (p : PackageInfo),
      d.packages = db0.packages → find_package db0 m = some p →
      m ∈ L.map (fun t => t.1) →
      get_installed (L.foldl (upgradeStep now) d) m =
        some ⟨p.name, p.version, now, []⟩ := by
  intro L
  induction L with
  | nil =>
    intro d m p _ _ hm
    simp at hm
  | cons t rest ih =>
    intro d m p hpk hfp hm
    rw [List.foldl_cons]
    by_cases hmr : m ∈ rest.map (fun t => t.1)
    · exact ih _ m p (by rw [upgradeStep_packages]; exact hpk) hfp hmr
    · have hm1 : m = t.1 := by
        rw [List.map_cons] at hm
        rcases List.mem_cons.mp hm with he | he
        · exact he
        · exact absurd he hmr
      rw [fold_lookup_unchanged now rest _ m hmr]
      unfold upgradeStep
      rw [← hm1, find_package_congr hpk, hfp]
      rw [get_installed_record]
      rw [if_pos (find_package_name hfp).symm]

/-- After force-installing every upgrade candidate, no upgrades remain. -/
theorem check_upgrades_applyUpgrades (db : Database) (now : String) (hnd : keysNodup db) :
    check_upgrades (applyUpgrades db now) = [] := by
  rw [applyUpgrades_eq_foldl]
  set D := (check_upgrades db).foldl (upgradeStep now) db with hD
  have hpk : D.packages = db.packages := fold_packages now _ db
  have hndD : keysNodup D := fold_keysNodup now _ db hnd
  show D.installed.filterMap (upgradeEntry D) = []
  refine List.filterMap_eq_nil_iff.mpr ?_
  intro kv hkv
  have hlook : get_installed D kv.1 = some kv.2 :=
    get_installed_of_mem hndD (by rw [← Prod.mk.eta (p := kv)] at hkv; exact hkv)
  cases hfp : find_package D kv.1 with
  | none => exact upgradeEntry_no_pkg hfp
  | some p =>
    have hfp0 : find_package db kv.1 = some p := by
      rw [← find_package_congr hpk]
      exact hfp
    by_cases hm : kv.1 ∈ (check_upgrades db).map (fun t => t.1)
    · have hhit := fold_lookup_hit now db (check_upgrades db) db kv.1 p rfl hfp0 hm
      rw [← hD] at hhit
      rw [hlook] at hhit
      have hkv2 : kv.2 = (⟨p.name, p.version, now, []⟩ : InstalledPackage) :=
        Option.some.inj hhit
      exact upgradeEntry_same hfp (by rw [hkv2])
    · have hun : get_installed D kv.1 = get_installed db kv.1 := by
        rw [hD]
        exact fold_lookup_unchanged now _ db kv.1 hm
      by_cases hveq : p.version = kv.2.version
      · exact upgradeEntry_same hfp hveq
      · exfalso
        have hmem : (kv.1, kv.2.version, p.version) ∈ check_upgrades db := by
          refine (mem_check_upgrades hnd).mpr
            ⟨kv.2, ?_, rfl, p, hfp0, rfl, hveq⟩
          rw [← hun]
          exact hlook
        exact hm (List.mem_map.mpr ⟨(kv.1, kv.2.version, p.version), hmem, rfl⟩)

/-- `record_install` then `remove_installed` of a package that was not
installed restores the installed mapping exactly. -/
theorem record_remove_roundtrip (db : Database) (pkg : PackageInfo) (now : String)
    (h : get_installed db pkg.name = none) :
    (remove_installed (record_install db pkg now) pkg.name).installed = db.installed := by
  have hfind : db.installed.find? (fun kv => kv.1 == pkg.name) = none := by
    have := congrArg (fun o => o = none) (rfl : get_installed db pkg.name = _)
    unfold get_installed at h
    exact Option.map_eq_none'.mp h
  have hall : ∀ kv ∈ db.installed, ¬ (kv.1 == pkg.name) = true := List.find?_eq_none.mp hfind
  have hany : ¬ (db.installed.any (fun kv => kv.1 == pkg.name) = true) := by
    intro hc
    rcases List.any_eq_true.mp hc with ⟨kv, hkv, hk⟩
    exact hall kv hkv hk
  show (insertInstalled db.installed pkg.name _).filter (fun kv => ¬ (kv.1 = pkg.name)) = _
  unfold insertInstalled
  rw [if_neg hany, List.filter_append]
  have h1 : db.installed.filter (fun kv => ¬ (kv.1 = pkg.name)) = db.installed := by
    refine List.filter_eq_self.mpr ?_
    intro kv hkv
    have := hall kv hkv
    simp only [beq_iff_eq] at this
    simpa using this
  have h2 : List.filter (fun kv => ¬ (kv.1 = pkg.name))
      [(pkg.name, (⟨pkg.name, pkg.version, now, []⟩ : InstalledPackage))] = [] := by
    simp
  rw [h1, h2, List.append_nil]


/-! ## The installation orchestrator -/

/-- `install_package` on an already-installed package without `force` is a
no-op: the state (database and call trace) is returned unchanged. -/
theorem install_package_noop (env : Env) (fuel : Nat) (st : PMState) (name : String)
    (h : (get_installed st.db name).isSome) :
    install_package env fuel st name false = (st, .ok ()) := by
  rw [install_package.eq_def]
  simp [h]

theorem installDeps_noop (env : Env) (fuel : Nat) (st : PMState) (names : List String)
    (h : ∀ d ∈ names, (get_installed st.db d).isSome) :
    installDeps (fun s d => install_package env fuel s d false) st names = (st, .ok ()) := by
  induction names with
  | nil => rfl
  | cons n rest ih =>
    have h1 := install_package_noop env fuel st n (h n (List.mem_cons_self n rest))
    simp only [installDeps, h1]
    exact ih (fun d hd => h d (List.mem_cons_of_mem n hd))

/-- `install_package` on a package with a declared hash that does not match
the fetched artifact, all of whose resolver-listed dependencies are already
installed: it fails with the checksum-mismatch error after the fetch and
verify calls, with no extract call, no recorded entry, and the database
unchanged. -/
theorem install_checksum_mismatch (env : Env) (fuel : Nat) (st : PMState) (name : String)
    (pkg : PackageInfo) (h : String)
    (hni : get_installed st.db name = none)
    (hfp : find_package st.db name = some pkg)
    (hdeps : ∀ d ∈ resolve_deps st.db pkg, (get_installed st.db d).isSome)
    (hfh : env.fetchHash name = some h)
    (hsha : pkg.sha256 ≠ "")
    (hmis : h ≠ pkg.sha256) :
    install_package env (fuel + 1) st name false =
      (⟨st.db, st.events ++ [Event.fetch name, Event.check name]⟩,
        .error ("Checksum mismatch for " ++ pkg.name)) := by
  rw [install_package.eq_def]
  simp [hni, hfp, installDeps_noop env fuel st _ hdeps, hfh, verify_package, hsha, hmis]

/-! ## Removal of recorded files -/

theorem remove_package_files_removes (root : List String) (e : InstalledPackage) :
    ∀ f ∈ e.files, f ∉ remove_package_files root e := by
  intro f hf hc
  have hmem := List.mem_filter.mp hc
  have hnot : f ∉ e.files := by simpa using hmem.2
  exact hnot hf

theorem remove_package_files_of_no_files (root : List String) (e : InstalledPackage)
    (h : e.files = []) : remove_package_files root e = root := by
  simp [remove_package_files, h]

/-- The entry `record_install` writes: empty `files` list. -/
theorem record_install_entry (db : Database) (pkg : PackageInfo) (now : String) :
    get_installed (record_install db pkg now) pkg.name =
      some ⟨pkg.name, pkg.version, now, []⟩ := by
  rw [get_installed_record]
  simp

/-! ## Concrete fixtures used by witnesses and counterexamples -/

/-- `A` depends on `B`. -/
def pkgA : PackageInfo := ⟨"A", "1", "", "", ["B"], "", "", ""⟩

/-- `B` depends on `A` (closes a 2-cycle with `pkgA`). -/
def pkgBA : PackageInfo := ⟨"B", "1", "", "", ["A"], "", "", ""⟩

/-- `B` depends on `C`. -/
def pkgBC : PackageInfo := ⟨"B", "1", "", "", ["C"], "", "", ""⟩

/-- `C` depends on nothing. -/
def pkgC : PackageInfo := ⟨"C", "1", "", "", [], "", "", ""⟩

/-- Repository with the dependency cycle `A → B → A`, nothing installed. -/
def cycDb : Database := ⟨[pkgA, pkgBA], []⟩

/-- Acyclic repository `A → B → C`, nothing installed. -/
def chainDb : Database := ⟨[pkgA, pkgBC, pkgC], []⟩

/-- `P` depends on the name `X`, which no repository entry provides. -/
def pkgP : PackageInfo := ⟨"P", "1", "", "", ["X"], "", "", ""⟩

/-- Repository containing only `pkgP`, nothing installed. -/
def loneDb : Database := ⟨[pkgP], []⟩

theorem chainDb_edges {a b : String} (h : DepEdge chainDb a b) :
    (a = "A" ∧ b = "B") ∨ (a = "B" ∧ b = "C") := by
  obtain ⟨p, hp, hb⟩ := h
  have hpmem : p ∈ chainDb.packages := find_package_mem hp
  have hpname := find_package_name hp
  have hcases : p = pkgA ∨ p = pkgBC ∨ p = pkgC := by simpa [chainDb] using hpmem
  rcases hcases with rfl | rfl | rfl
  · exact Or.inl ⟨hpname.symm, by simpa [pkgA] using hb⟩
  · exact Or.inr ⟨hpname.symm, by simpa [pkgBC] using hb⟩
  · exact absurd hb (by simp [pkgC])

theorem acyclic_chainDb : Acyclic chainDb := by
  refine acyclic_of_rank chainDb
    (fun s => if s = "A" then 0 else if s = "B" then 1 else 2) ?_
  intro a b h
  rcases chainDb_edges h with ⟨ha, hb⟩ | ⟨ha, hb⟩ <;> rw [ha, hb] <;> decide

theorem loneDb_edges {a b : String} (h : DepEdge loneDb a b) : a = "P" ∧ b = "X" := by
  obtain ⟨p, hp, hb⟩ := h
  have hpmem : p ∈ loneDb.packages := find_package_mem hp
  have hpname := find_package_name hp
  have hcase : p = pkgP := by simpa [loneDb] using hpmem
  rcases hcase with rfl
  exact ⟨hpname.symm, by simpa [pkgP] using hb⟩

theorem acyclic_loneDb : Acyclic loneDb := by
  refine acyclic_of_rank loneDb (fun s => if s = "P" then 0 else 1) ?_
  intro a b h
  obtain ⟨ha, hb⟩ := loneDb_edges h
  rw [ha, hb]
  decide

/-- Target `t` declares hash `"aa"` and depends on `d`; `d` has no declared
hash; the fetcher delivers artifacts hashing to `"zz"` for everything. -/
def pkgT : PackageInfo := ⟨"t", "1", "", "", ["d"], "", "aa", "t.tar.zst"⟩

/-- Dependency `d` of `pkgT`, with an empty declared hash. -/
def pkgD : PackageInfo := ⟨"d", "1", "", "", [], "", "", "d.tar.zst"⟩

/-- Fetcher delivering artifacts that hash to `"zz"` for every package. -/
def envT : Env := ⟨fun _ => some "zz", "now"⟩

/-- Initial state for the checksum-mismatch scenario: `t` and `d` in the
repository, nothing installed, empty call trace. -/
def stT : PMState := ⟨⟨[pkgT, pkgD], []⟩, []⟩

/-- The state `install t` reaches before failing on the checksum mismatch:
dependency `d` fully installed (fetched, verified, extracted, recorded). -/
def stT' : PMState :=
  ⟨⟨[pkgT, pkgD], [("d", ⟨"d", "1", "now", []⟩)]⟩,
    [Event.fetch "d", Event.check "d", Event.extract "d",
      Event.fetch "t", Event.check "t"]⟩

/-- Standalone package `s` with declared hash `"aa"` and no dependencies. -/
def pkgS : PackageInfo := ⟨"s", "1", "", "", [], "", "aa", "s.tar.zst"⟩

/-- State with only `pkgS` synced and nothing installed. -/
def stS : PMState := ⟨⟨[pkgS], []⟩, []⟩

/-- Installed entry used by the no-op-install witness. -/
def instA : InstalledPackage := ⟨"a", "1", "t0", []⟩

/-- State in which package `a` is already installed. -/
def stInst : PMState := ⟨⟨[], [("a", instA)]⟩, []⟩

/-- Database for the upgrade witness: `a` installed at version `1`, the
repository offers version `2`. -/
def upDb : Database := ⟨[⟨"a", "2", "", "", [], "", "", ""⟩], [("a", ⟨"a", "1", "t0", []⟩)]⟩

/-- Two repository entries named `dup` (an undefined-by-spec state) behind a
non-matching entry. -/
def dupA : PackageInfo := ⟨"dup", "1", "", "", [], "", "", ""⟩

/-- Second, later entry with the same name `dup` and a different version. -/
def dupB : PackageInfo := ⟨"dup", "2", "", "", [], "", "", ""⟩

/-- An unrelated repository entry in front of the duplicates. -/
def otherPkg : PackageInfo := ⟨"other", "1", "", "", [], "", "", ""⟩

/-! ## The claims -/

/-- Claim C1 (counterexample): on the cyclic database `A → B → A`,
`resolve_deps(A)` contains the name of `A` itself, refuting "for every
package P and every database state, the list returned by resolve_deps(P)
never contains the name of P". -/
theorem c1_counterexample : pkgA.name ∈ resolve_deps cycDb pkgA := by decide

/-- Claim C1 (amended): for every package P and database state,
`resolve_deps(P)` never contains a name that is a key of the installed
mapping; and it never contains P's own name provided P's name occurs in no
dependency list (neither P's own nor that of any repository package) — on a
dependency cycle through P the list can contain P itself. -/
theorem c1_amended (db : Database) (pkg : PackageInfo) :
    (∀ n ∈ resolve_deps db pkg, get_installed db n = none) ∧
    (pkg.name ∉ pkg.depends → (∀ q ∈ db.packages, pkg.name ∉ q.depends) →
      pkg.name ∉ resolve_deps db pkg) := by
  constructor
  · intro n hn
    exact (resolve_deps_sound db pkg n hn).2.1
  · intro h1 h2 hmem
    rcases (resolve_deps_sound db pkg _ hmem).2.2 with h3 | ⟨q, hq, h3⟩
    · exact h1 h3
    · exact h2 q hq h3

/-- Claim C1 (witness): on the acyclic chain `A → B → C` with nothing
installed, `resolve_deps(A)` contains no installed name and not `A`. -/
theorem c1_witness :
    (∀ n ∈ resolve_deps chainDb pkgA, get_installed chainDb n = none) ∧
      pkgA.name ∉ resolve_deps chainDb pkgA :=
  ⟨(c1_amended chainDb pkgA).1, (c1_amended chainDb pkgA).2 (by decide) (by decide)⟩

/-- Claim C2 (counterexample): on the acyclic database whose only package
`P` depends on the unknown name `X`, the not-yet-installed transitive
dependency `X` is not listed by `resolve_deps(P)` — unknown names are
silently skipped — refuting "resolve_deps(P) lists each not-yet-installed
transitive dependency name". -/
theorem c2_counterexample :
    Acyclic loneDb ∧ "X" ∈ pkgP.depends ∧ get_installed loneDb "X" = none ∧
      "X" ∉ resolve_deps loneDb pkgP :=
  ⟨acyclic_loneDb, by decide, rfl, by decide⟩

/-- Claim C2 (amended): for every package P whose transitive dependency
graph is acyclic, `resolve_deps(P)` lists each not-yet-installed transitive
dependency name *that is present in the repository snapshot* exactly once
(no duplicates; unknown dependency names are silently skipped), and whenever
a listed package Q transitively depends on a listed package R, R appears
strictly before Q in the output (post-order install order). -/
theorem c2_amended (db : Database) (pkg : PackageInfo) (hA : Acyclic db) :
    (resolve_deps db pkg).Nodup ∧
    (∀ n, n ∈ resolve_deps db pkg ↔
      (known db n ∧ get_installed db n = none ∧ ∃ m ∈ pkg.depends, Reaches db m n)) ∧
    (∀ q r, q ∈ resolve_deps db pkg → r ∈ resolve_deps db pkg →
      Relation.TransGen (DepEdge db) q r →
      List.indexOf r (resolve_deps db pkg) < List.indexOf q (resolve_deps db pkg)) :=
  resolve_deps_correct db pkg hA

/-- Claim C2 (witness): the amended characterisation instantiated on the
acyclic chain `A → B → C`. -/
theorem c2_witness :
    (resolve_deps chainDb pkgA).Nodup ∧
    (∀ n, n ∈ resolve_deps chainDb pkgA ↔
      (known chainDb n ∧ get_installed chainDb n = none ∧
        ∃ m ∈ pkgA.depends, Reaches chainDb m n)) ∧
    (∀ q r, q ∈ resolve_deps chainDb pkgA → r ∈ resolve_deps chainDb pkgA →
      Relation.TransGen (DepEdge chainDb) q r →
      List.indexOf r (resolve_deps chainDb pkgA) < List.indexOf q (resolve_deps chainDb pkgA)) :=
  c2_amended chainDb pkgA acyclic_chainDb

/-- Claim C3: for every database (with the hash-map key invariant on
`installed`), `check_upgrades` returns exactly the installed names that
occur in the repository snapshot with a byte-wise different version string;
and after `record_install` with the repository `PackageInfo` for every
returned name (`applyUpgrades`, the effect of force-installing each),
`check_upgrades` on the resulting database is empty. -/
theorem c3_theorem (db : Database) (now : String) (hnd : keysNodup db) :
    (∀ n iv rv, (n, iv, rv) ∈ check_upgrades db ↔
      ∃ inst, get_installed db n = some inst ∧ inst.version = iv ∧
        ∃ p, find_package db n = some p ∧ p.version = rv ∧ rv ≠ iv) ∧
    check_upgrades (applyUpgrades db now) = [] :=
  ⟨fun _ _ _ => mem_check_upgrades hnd, check_upgrades_applyUpgrades db now hnd⟩

/-- Claim C3 (witness): `a` installed at version `1` with repository version
`2`; after applying the upgrades, none remain. -/
theorem c3_witness :
    keysNodup upDb ∧
    ((∀ n iv rv, (n, iv, rv) ∈ check_upgrades upDb ↔
      ∃ inst, get_installed upDb n = some inst ∧ inst.version = iv ∧
        ∃ p, find_package upDb n = some p ∧ p.version = rv ∧ rv ≠ iv) ∧
    check_upgrades (applyUpgrades upDb "t1") = []) :=
  ⟨(by decide : (upDb.installed.map Prod.fst).Nodup),
    c3_theorem upDb "t1" (by decide : (upDb.installed.map Prod.fst).Nodup)⟩

/-- Claim C4: installing an already-installed package without `force`
returns success immediately as a no-op: the state — database and the trace
of fetch/verify/extract calls — is returned unchanged. -/
theorem c4_theorem (env : Env) (fuel : Nat) (st : PMState) (name : String)
    (h : (get_installed st.db name).isSome) :
    install_package env fuel st name false = (st, .ok ()) :=
  install_package_noop env fuel st name h

/-- Claim C4 (witness): installing the already-installed `a` is the
identity on the state. -/
theorem c4_witness :
    (get_installed stInst.db "a").isSome ∧
      install_package envT 3 stInst "a" false = (stInst, .ok ()) :=
  ⟨by decide, c4_theorem envT 3 stInst "a" (by decide)⟩

/-- Claim C5: for a package not installed beforehand, `record_install`
followed by `remove_installed` of its name restores the installed mapping
(and the repository snapshot) exactly, and the file-removal step of remove
deletes every file path recorded in the package's `InstalledPackage`
entry. -/
theorem c5_theorem (db : Database) (pkg : PackageInfo) (now : String) (root : List String)
    (h : get_installed db pkg.name = none) :
    ((remove_installed (record_install db pkg now) pkg.name).installed = db.installed ∧
      (remove_installed (record_install db pkg now) pkg.name).packages = db.packages) ∧
    (∀ e, get_installed (record_install db pkg now) pkg.name = some e →
      ∀ f ∈ e.files, f ∉ remove_package_files root e) := by
  refine ⟨⟨record_remove_roundtrip db pkg now h, rfl⟩, ?_⟩
  intro e _ f hf
  exact remove_package_files_removes root e f hf

/-- Claim C5 (witness): the round trip on an empty database for package
`s`. -/
theorem c5_witness :
    ((remove_installed (record_install ⟨[pkgS], []⟩ pkgS "t0") pkgS.name).installed =
        (⟨[pkgS], []⟩ : Database).installed ∧
      (remove_installed (record_install ⟨[pkgS], []⟩ pkgS "t0") pkgS.name).packages =
        (⟨[pkgS], []⟩ : Database).packages) ∧
    (∀ e, get_installed (record_install ⟨[pkgS], []⟩ pkgS "t0") pkgS.name = some e →
      ∀ f ∈ e.files, f ∉ remove_package_files ["bin/s"] e) :=
  c5_theorem ⟨[pkgS], []⟩ pkgS "t0" ["bin/s"] rfl

/-- Claim C6 (counterexample): installing `t` (declared hash `"aa"`, fetched
artifact hashing to `"zz"`) fails with the checksum-mismatch error and `t`
is neither extracted nor recorded — but the state is *not* unchanged: the
uninstalled dependency `d` was installed first, mutating the database and
extracting into the root. -/
theorem c6_counterexample :
    install_package envT 2 stT "t" false = (stT', .error ("Checksum mismatch for t")) ∧
      stT'.db.installed ≠ stT.db.installed ∧
      Event.extract "d" ∈ stT'.events ∧
      Event.extract "t" ∉ stT'.events ∧
      get_installed stT'.db "t" = none :=
  ⟨rfl, by decide, by decide, by decide, rfl⟩

/-- Claim C6 (amended): for every package whose declared sha256 is non-empty
and whose fetched artifact hashes to a different value, and all of whose
resolver-listed dependencies are already installed (in particular any
dependency-free package), install fails with a checksum-mismatch error
before extraction is attempted: only the fetch and verify calls happen, no
extract call, the database is unchanged and no entry is recorded.  (With
uninstalled dependencies, those are installed first and that part of the
state change persists.) -/
theorem c6_theorem (env : Env) (fuel : Nat) (st : PMState) (name : String)
    (pkg : PackageInfo) (h : String)
    (hni : get_installed st.db name = none)
    (hfp : find_package st.db name = some pkg)
    (hdeps : ∀ d ∈ resolve_deps st.db pkg, (get_installed st.db d).isSome)
    (hfh : env.fetchHash name = some h)
    (hsha : pkg.sha256 ≠ "")
    (hmis : h ≠ pkg.sha256) :
    install_package env (fuel + 1) st name false =
      (⟨st.db, st.events ++ [Event.fetch name, Event.check name]⟩,
        .error ("Checksum mismatch for " ++ pkg.name)) :=
  install_checksum_mismatch env fuel st name pkg h hni hfp hdeps hfh hsha hmis

/-- Claim C6 (witness): the dependency-free package `s` with declared hash
`"aa"` and artifact hash `"zz"`: install fails with the mismatch error, the
database untouched, only fetch and verify in the trace. -/
theorem c6_witness :
    install_package envT 1 stS "s" false =
      (⟨stS.db, stS.events ++ [Event.fetch "s", Event.check "s"]⟩,
        .error ("Checksum mismatch for " ++ pkgS.name)) :=
  c6_theorem envT 0 stS "s" pkgS "zz" rfl rfl (by decide) rfl (by decide) (by decide)

/-- Claim C7: for every database — cyclic dependency graphs included — the
guarded traversal underlying `resolve_deps` returns a result within the
computed fuel bound `dbFuel`: the `visited` guard prevents infinite
recursion on every input. -/
theorem c7_theorem (db : Database) (pkg : PackageInfo) :
    (resolve_deps_recursive db (dbFuel db) pkg.depends [] []).isSome :=
  resolve_some db pkg

/-- Claim C8: a package whose declared sha256 is the empty string passes
verification (with only a warning) regardless of the fetched artifact's
hash. -/
theorem c8_theorem (artifactHash : String) (pkg : PackageInfo) (h : pkg.sha256 = "") :
    verify_package artifactHash pkg = .ok true := by
  simp [verify_package, h]

/-- Claim C8 (witness): `pkgD` declares no hash and passes for an arbitrary
artifact. -/
theorem c8_witness : pkgD.sha256 = "" ∧ verify_package "deadbeef" pkgD = .ok true :=
  ⟨rfl, c8_theorem "deadbeef" pkgD rfl⟩

/-- Claim C9: every `InstalledPackage` entry created by `record_install` has
an empty `files` list, so the file-deletion phase of remove deletes nothing
from the root filesystem. -/
theorem c9_theorem (db : Database) (pkg : PackageInfo) (now : String) :
    ∃ e, get_installed (record_install db pkg now) pkg.name = some e ∧
      e.files = [] ∧ ∀ root, remove_package_files root e = root :=
  ⟨⟨pkg.name, pkg.version, now, []⟩, record_install_entry db pkg now, rfl,
    fun root => remove_package_files_of_no_files root _ rfl⟩

/-- Claim C10: when the repository snapshot contains several entries with
the same name, `find_package` returns the first matching entry in snapshot
order, regardless of later duplicates. -/
theorem c10_theorem (pre post : List PackageInfo) (p : PackageInfo)
    (inst : List (String × InstalledPackage)) (name : String)
    (hpre : ∀ q ∈ pre, q.name ≠ name) (hp : p.name = name) :
    find_package ⟨pre ++ p :: post, inst⟩ name = some p := by
  show (pre ++ p :: post).find? (fun q => q.name == name) = some p
  rw [List.find?_append]
  have h1 : pre.find? (fun q => q.name == name) = none := by
    refine List.find?_eq_none.mpr ?_
    intro q hq
    simpa using hpre q hq
  rw [h1, List.find?_cons_of_pos _ (by simp [hp])]
  rfl

/-- Claim C10 (witness): with two entries named `dup` (versions `1` then
`2`) behind an unrelated entry, lookup returns the first `dup` entry. -/
theorem c10_witness :
    (∀ q ∈ [otherPkg], q.name ≠ "dup") ∧
      find_package ⟨[otherPkg, dupA, dupB], []⟩ "dup" = some dupA :=
  ⟨by decide, c10_theorem [otherPkg] [dupB] dupA [] "dup" (by decide) rfl⟩
